import Mathlib

/-!
Verification development for the Aspix ASCII-art converter
(`src/converter.rs`).  The Rust code is shallowly embedded: `f32`
arithmetic is modelled by exact rational arithmetic (`ℚ`), `u8`/`u32`
values by `Fin 256`/`ℕ`, and the saturating numeric casts `as usize`,
`as u32`, `as u8` by explicit floor/truncation operations.
-/

namespace Aspix

/-- Basic ASCII alphabet, dark to light (`ASCII_CHARS` in converter.rs). -/
def ASCII_CHARS : List Char := "@%#*+=-:. ".toList

/-- Detailed ASCII alphabet (`DETAILED_ASCII_CHARS` in converter.rs).
The brace, backtick and apostrophe glyphs are written with `\xNN`
escapes. -/
def DETAILED_ASCII_CHARS : List Char :=
  "$@B%8&WM#*oahkbdpqwmZO0QLCJUYXzcvunxrjft/\\|()1\x7b\x7d[]?-_+~<>i!lI;:,\"^\x60\x27. ".toList

/-- Unicode block-density alphabet (`HIGH_DENSITY_CHARS` in
converter.rs), a slice of one-character strings. -/
def HIGH_DENSITY_CHARS : List String :=
  ["█", "▓", "▒", "░", "▄", "▀", "■", "▪", "●", "◆",
   "◉", "◍", "◎", "○", "☉", "◌", "◊", "♦", "♢", "•",
   ".", " "]

/-- The inline byte-string alphabet used by the colored path when
`use_high_density` is set (line 388 of converter.rs). -/
def COLORED_HD_FALLBACK_CHARS : List Char := "@%#*+=-:. ".toList

/-- Configuration record (`AsciiConfig` in converter.rs).  The `f32`
fields are modelled as rationals. -/
structure AsciiConfig where
  width : Nat
  height : Nat
  use_detailed_chars : Bool
  use_high_density : Bool
  use_color : Bool
  color_saturation : ℚ
  invert : Bool
  contrast : ℚ
  brightness : ℚ
  scale : ℚ

/-- Default configuration (`Default for AsciiConfig`). -/
def defaultConfig : AsciiConfig :=
  { width := 100, height := 50, use_detailed_chars := false,
    use_high_density := false, use_color := false,
    color_saturation := 7/10, invert := false,
    contrast := 1, brightness := 1, scale := 1 }

/-- A decoded grayscale image (`GrayImage`): every pixel is a `u8`
luminance value, so pixel reads outside `width × height` never occur in
the code (they are guarded); the accessor is total over `ℕ × ℕ` and the
guards appear explicitly in the sampling loops below. -/
structure GrayImage where
  width : Nat
  height : Nat
  get : Nat → Nat → Fin 256

/-- A decoded RGBA image (`DynamicImage` viewed through `get_pixel`):
channels r, g, b, a, each a `u8`. -/
structure RgbaImage where
  width : Nat
  height : Nat
  get : Nat → Nat → Fin 256 × Fin 256 × Fin 256 × Fin 256

/-- Rust `f32::clamp(lo, hi)`: if below `lo` take `lo`, if above `hi`
take `hi`, otherwise the value itself. -/
def clampRust (x lo hi : ℚ) : ℚ :=
  if x < lo then lo else if hi < x then hi else x

/-- Rust `as u8` saturating cast from a nonnegative-ranged float:
truncate toward zero and saturate into `[0, 255]`. -/
def ratToU8 (q : ℚ) : Nat := min (⌊q⌋).toNat 255

/-- Rust `as usize` cast of a float that is nonnegative in all reachable
states: truncation, saturating at 0 from below. -/
def ratToUsize (q : ℚ) : Nat := (⌊q⌋).toNat

/-- The integer scale factor `self.config.scale as u32` used by both
sampling loops. -/
def sfOf (scale : ℚ) : Nat := (⌊scale⌋).toNat

/-- `scale_factor` for a configuration. -/
def scaleFactor (cfg : AsciiConfig) : Nat := sfOf cfg.scale

/-- Glyph-index computation shared by all paths of converter.rs:
`(v * (len - 1) as f32) as usize`.  `n` is the alphabet length (a
`usize`, so `n - 1` is truncated subtraction). -/
def glyphIndex (v : ℚ) (n : Nat) : Nat := ratToUsize (v * ((n - 1 : Nat) : ℚ))

/-- Per-pixel grayscale brightness as computed in `image_to_ascii`:
normalize the luminance byte, then apply the invert flag pixelwise. -/
def pixelBrightnessGray (cfg : AsciiConfig) (p : Fin 256) : ℚ :=
  let b : ℚ := (p.val : ℚ) / 255
  if cfg.invert then 1 - b else b

/-- The in-bounds offsets `(dx, dy)` visited with a positive guard by the
nested `for dy { for dx { if in-bounds } }` loops, for block base
`(baseX, baseY)` in a `w × h` buffer. -/
def blockOffsets (sf w h baseX baseY : Nat) : List (Nat × Nat) :=
  (List.range sf).flatMap (fun dy =>
    ((List.range sf).filter
        (fun dx => decide (baseX + dx < w ∧ baseY + dy < h))).map
      (fun dx => (dx, dy)))

/-- The absolute pixel coordinates covered by the block of output cell
`(x, y)`: base `(x·sf, y·sf)` plus the in-bounds offsets, where
`sf = ⌊scale⌋` is the truncated scale factor. -/
def codePixels (scale : ℚ) (w h x y : Nat) : List (Nat × Nat) :=
  (blockOffsets (sfOf scale) w h (x * sfOf scale) (y * sfOf scale)).map
    (fun d => (x * sfOf scale + d.1, y * sfOf scale + d.2))

/-- Accumulator pass of the grayscale sampling loops of
`image_to_ascii`: fold over all `(dy, dx)` offsets, conditionally adding
`(brightness, 1)` exactly as the Rust loop mutates
`(total_brightness, count)` (the count is an `f32` in the source, hence
a rational here). -/
def grayCellStats (cfg : AsciiConfig) (img : GrayImage) (x y : Nat) : ℚ × ℚ :=
  let sf := scaleFactor cfg
  let baseX := x * sf
  let baseY := y * sf
  (List.range sf).foldl (fun acc dy =>
    (List.range sf).foldl (fun acc2 dx =>
      if baseX + dx < img.width ∧ baseY + dy < img.height then
        acc2 + (pixelBrightnessGray cfg (img.get (baseX + dx) (baseY + dy)), 1)
      else acc2) acc) ((0 : ℚ), (0 : ℚ))

/-- `avg_brightness` of a grayscale cell: `total / count` when at least
one pixel was covered, `0.0` otherwise. -/
def grayCellAvg (cfg : AsciiConfig) (img : GrayImage) (x y : Nat) : ℚ :=
  if 0 < (grayCellStats cfg img x y).2
  then (grayCellStats cfg img x y).1 / (grayCellStats cfg img x y).2 else 0

/-- Length of the alphabet the grayscale path indexes into: the
high-density set when `use_high_density`, else detailed or basic. -/
def grayAlphabetLen (cfg : AsciiConfig) : Nat :=
  if cfg.use_high_density then HIGH_DENSITY_CHARS.length
  else if cfg.use_detailed_chars then DETAILED_ASCII_CHARS.length
  else ASCII_CHARS.length

/-- The alphabet index computed for a grayscale cell. -/
def grayCellIndex (cfg : AsciiConfig) (img : GrayImage) (x y : Nat) : Nat :=
  glyphIndex (grayCellAvg cfg img x y) (grayAlphabetLen cfg)

/-- The characters pushed onto the output string for one grayscale cell:
the high-density glyph via `push_str`, or the single ASCII character via
`push`.  `getD` stands for the Rust index operation; claim C9's theorem
shows the index is always in bounds, so the default is never taken. -/
def grayCellGlyph (cfg : AsciiConfig) (img : GrayImage) (x y : Nat) : List Char :=
  if cfg.use_high_density then
    (HIGH_DENSITY_CHARS.getD (grayCellIndex cfg img x y) "").toList
  else if cfg.use_detailed_chars then
    [DETAILED_ASCII_CHARS.getD (grayCellIndex cfg img x y) ' ']
  else
    [ASCII_CHARS.getD (grayCellIndex cfg img x y) ' ']

/-- One output row of the grayscale path (the inner `for x` loop). -/
def grayRow (cfg : AsciiConfig) (img : GrayImage) (y : Nat) : List Char :=
  (List.range cfg.width).flatMap (fun x => grayCellGlyph cfg img x y)

/-- `image_to_ascii`: rows in order, each terminated by `push('\n')`. -/
def image_to_ascii (cfg : AsciiConfig) (img : GrayImage) : List Char :=
  (List.range cfg.height).flatMap (fun y => grayRow cfg img y ++ ['\n'])

/-- Per-pixel contribution accumulated by the colored sampling loop of
`image_to_colored_ascii`: normalized r, g, b, the luma
`r*0.3 + g*0.59 + b*0.11`, and the count increment. -/
def coloredPixelContrib (p : Fin 256 × Fin 256 × Fin 256 × Fin 256) :
    ℚ × ℚ × ℚ × ℚ × ℚ :=
  let r : ℚ := (p.1.val : ℚ) / 255
  let g : ℚ := (p.2.1.val : ℚ) / 255
  let b : ℚ := (p.2.2.1.val : ℚ) / 255
  (r, g, b, r * (3/10) + g * (59/100) + b * (11/100), 1)

/-- Accumulator pass of the colored sampling loops:
`(total_r, total_g, total_b, total_brightness, count)`, all `f32` in the
source. -/
def coloredCellStats (cfg : AsciiConfig) (img : RgbaImage) (x y : Nat) :
    ℚ × ℚ × ℚ × ℚ × ℚ :=
  let sf := scaleFactor cfg
  let baseX := x * sf
  let baseY := y * sf
  (List.range sf).foldl (fun acc dy =>
    (List.range sf).foldl (fun acc2 dx =>
      if baseX + dx < img.width ∧ baseY + dy < img.height then
        acc2 + coloredPixelContrib (img.get (baseX + dx) (baseY + dy))
      else acc2) acc) (0, 0, 0, 0, 0)

/-- `avg_brightness` of a colored cell: the mean luma, complemented when
`invert` is set (the colored path inverts AFTER averaging).  This value
is only consumed when the count is positive, as in the source. -/
def coloredAvgBrightness (cfg : AsciiConfig) (img : RgbaImage) (x y : Nat) : ℚ :=
  if cfg.invert
  then 1 - (coloredCellStats cfg img x y).2.2.2.1 / (coloredCellStats cfg img x y).2.2.2.2
  else (coloredCellStats cfg img x y).2.2.2.1 / (coloredCellStats cfg img x y).2.2.2.2

/-- The byte alphabet the colored path indexes with: `use_detailed_chars`
wins, then `use_high_density` selects the inline 10-byte fallback. -/
def coloredChars (cfg : AsciiConfig) : List Char :=
  if cfg.use_detailed_chars then DETAILED_ASCII_CHARS
  else if cfg.use_high_density then COLORED_HD_FALLBACK_CHARS
  else ASCII_CHARS

/-- `char_index` of a colored cell. -/
def coloredCharIndex (cfg : AsciiConfig) (img : RgbaImage) (x y : Nat) : Nat :=
  glyphIndex (coloredAvgBrightness cfg img x y) (coloredChars cfg).length

/-- The glyph string emitted for a colored cell: the high-density glyph
when `use_high_density` is set and the index also fits that table,
otherwise the single byte of the selected alphabet (the `from_utf8` of
one ASCII byte always succeeds, so the `unwrap_or(" ")` branch is
dead). -/
def coloredGlyph (cfg : AsciiConfig) (img : RgbaImage) (x y : Nat) : String :=
  if cfg.use_high_density ∧ coloredCharIndex cfg img x y < HIGH_DENSITY_CHARS.length
  then HIGH_DENSITY_CHARS.getD (coloredCharIndex cfg img x y) ""
  else String.singleton ((coloredChars cfg).getD (coloredCharIndex cfg img x y) ' ')

/-- Saturation blending of one averaged channel,
`((avg*sat + (1-sat)*0.5) * 255) as u8`. -/
def satChannel (sat avg : ℚ) : Nat := ratToU8 ((avg * sat + (1 - sat) * (1/2)) * 255)

/-- The data of one emitted `<span>`: its rgb color bytes and glyph. -/
structure ColorSpan where
  r : Nat
  g : Nat
  b : Nat
  glyph : String
deriving DecidableEq

/-- One cell of the colored path.  The source only pushes a span under
`if count > 0.0`; a zero-coverage cell therefore contributes nothing,
which is modelled by `none`. -/
def coloredCell (cfg : AsciiConfig) (img : RgbaImage) (x y : Nat) : Option ColorSpan :=
  if 0 < (coloredCellStats cfg img x y).2.2.2.2 then
    some { r := satChannel cfg.color_saturation
             ((coloredCellStats cfg img x y).1 / (coloredCellStats cfg img x y).2.2.2.2),
           g := satChannel cfg.color_saturation
             ((coloredCellStats cfg img x y).2.1 / (coloredCellStats cfg img x y).2.2.2.2),
           b := satChannel cfg.color_saturation
             ((coloredCellStats cfg img x y).2.2.1 / (coloredCellStats cfg img x y).2.2.2.2),
           glyph := coloredGlyph cfg img x y }
  else none

/-- The spans emitted for one row of the colored path (the HTML wrapper
and `<br/>` separators carry no per-cell information and are omitted). -/
def coloredRow (cfg : AsciiConfig) (img : RgbaImage) (y : Nat) : List ColorSpan :=
  (List.range cfg.width).filterMap (fun x => coloredCell cfg img x y)

/-- One channel of `apply_image_adjustments`: normalize, contrast with
clamp, brightness with clamp, then the truncating `as u8` cast (the
source reassigns `color` at each step; here the steps are composed). -/
def adjustChannel (contrast brightness : ℚ) (ch : Fin 256) : Nat :=
  ratToU8
    (clampRust
      (clampRust (((ch.val : ℚ) / 255 - 1/2) * contrast + 1/2) 0 1 * brightness) 0 1
      * 255)

/-- `apply_image_adjustments` on one RGBA pixel: the loop runs over the
first three channels only, so the alpha byte passes through. -/
def adjustPixel (contrast brightness : ℚ)
    (p : Fin 256 × Fin 256 × Fin 256 × Fin 256) : Nat × Nat × Nat × Nat :=
  (adjustChannel contrast brightness p.1,
   adjustChannel contrast brightness p.2.1,
   adjustChannel contrast brightness p.2.2.1,
   p.2.2.2.val)

/-- Modelled from the spec (§4.1): `clamp01` written as the spec reads,
`max 0 (min 1 v)`. -/
def clamp01Spec (v : ℚ) : ℚ := max 0 (min 1 v)

/-- Modelled from the spec (§4.1, claim C3): the tone map with
round-to-nearest denormalization,
`round(clamp01(clamp01((ch/255 - 0.5)*c + 0.5) * b) * 255)`. -/
def specToneMapRound (c b : ℚ) (ch : Fin 256) : Nat :=
  (round (clamp01Spec (clamp01Spec (((ch.val : ℚ) / 255 - 1/2) * c + 1/2) * b) * 255)).toNat

/-- The same tone map with truncating denormalization, the behaviour the
code actually has. -/
def specToneMapTrunc (c b : ℚ) (ch : Fin 256) : Nat :=
  (⌊clamp01Spec (clamp01Spec (((ch.val : ℚ) / 255 - 1/2) * c + 1/2) * b) * 255⌋).toNat

/-- Modelled from the spec (§4.2, claim C5): membership of source pixel
`(px, py)` in the block of output cell `(x, y)` for real-valued `scale`:
the rectangle `[x*scale, (x+1)*scale) × [y*scale, (y+1)*scale)`
intersected with the buffer bounds. -/
def specBlockMem (scale : ℚ) (w h x y px py : Nat) : Prop :=
  (x : ℚ) * scale ≤ px ∧ (px : ℚ) < ((x : ℚ) + 1) * scale ∧
  (y : ℚ) * scale ≤ py ∧ (py : ℚ) < ((y : ℚ) + 1) * scale ∧
  px < w ∧ py < h

/-- Split a character stream at newline characters; a trailing segment
not terminated by a newline still forms a final line. -/
def splitNLAux : List Char → List Char → List (List Char)
  | [], acc => if acc.isEmpty then [] else [acc.reverse]
  | c :: cs, acc =>
    if c = '\n' then acc.reverse :: splitNLAux cs [] else splitNLAux cs (c :: acc)

/-- The lines of a character stream. -/
def splitNL (s : List Char) : List (List Char) := splitNLAux s []

/-! ### Concrete configurations and images for witnesses -/

/-- A 1×1 output grid with otherwise default settings. -/
def cfgUnit : AsciiConfig := { defaultConfig with width := 1, height := 1 }

/-- `cfgUnit` with `invert` set. -/
def cfgInvOn : AsciiConfig := { cfgUnit with invert := true }

/-- `cfgUnit` with a degenerate `scale` of `0.5`, whose truncation to
`u32` is `0`, so every block covers zero pixels. -/
def cfgZero : AsciiConfig := { cfgUnit with scale := 1/2, use_color := true }

/-- `cfgUnit` with the high-density alphabet selected. -/
def cfgHD : AsciiConfig := { cfgUnit with use_high_density := true }

/-- `cfgUnit` with BOTH `use_detailed_chars` and `use_high_density`. -/
def cfgBoth : AsciiConfig :=
  { cfgUnit with use_detailed_chars := true, use_high_density := true }

/-- A 1×1 grayscale image whose pixel has luminance 51 (so brightness
`51/255 = 1/5`). -/
def imgGray51 : GrayImage := ⟨1, 1, fun _ _ => ⟨51, by norm_num⟩⟩

/-- A 1×1 pure-white RGBA image. -/
def imgCWhite : RgbaImage :=
  ⟨1, 1, fun _ _ => (⟨255, by norm_num⟩, ⟨255, by norm_num⟩, ⟨255, by norm_num⟩, ⟨255, by norm_num⟩)⟩

/-- A 1×1 pure-black RGBA image. -/
def imgCBlack : RgbaImage :=
  ⟨1, 1, fun _ _ => (⟨0, by norm_num⟩, ⟨0, by norm_num⟩, ⟨0, by norm_num⟩, ⟨255, by norm_num⟩)⟩

/-! ### Folding lemmas: the conditional accumulation loops as sums -/

theorem foldl_ite_add {β : Type} [AddMonoid β] (l : List Nat) (P : Nat → Prop)
    [DecidablePred P] (g : Nat → β) (init : β) :
    l.foldl (fun acc a => if P a then acc + g a else acc) init
      = init + ((l.filter (fun a => decide (P a))).map g).sum := by
  induction l generalizing init with
  | nil => simp
  | cons a t ih =>
    by_cases h : P a
    · simp [h, ih, add_assoc]
    · simp [h, ih]

theorem foldl_add_eq {β : Type} [AddMonoid β] (l : List Nat) (g : Nat → β) (init : β) :
    l.foldl (fun acc a => acc + g a) init = init + (l.map g).sum := by
  induction l generalizing init with
  | nil => simp
  | cons a t ih => simp [ih, add_assoc]

theorem sum_map_pair {α β γ : Type} [AddMonoid β] [AddMonoid γ] (l : List α)
    (f : α → β) (g : α → γ) :
    (l.map (fun a => ((f a, g a) : β × γ))).sum = ((l.map f).sum, (l.map g).sum) := by
  induction l with
  | nil => rfl
  | cons a t ih => simp [ih, Prod.add_def]

theorem sum_map_one {α : Type} (l : List α) :
    (l.map (fun _ => (1 : ℚ))).sum = (l.length : ℚ) := by
  induction l with
  | nil => rfl
  | cons a t ih => simp [ih, add_comm]

theorem sum_flatMap_mono {α β : Type} [AddMonoid β] (l : List α) (f : α → List β) :
    (l.flatMap f).sum = (l.map (fun a => (f a).sum)).sum := by
  induction l with
  | nil => rfl
  | cons a t ih => simp [ih]

theorem map_flatMap_mono {α β γ : Type} (l : List α) (f : α → List β) (g : β → γ) :
    (l.flatMap f).map g = l.flatMap (fun a => (f a).map g) := by
  induction l with
  | nil => rfl
  | cons a t ih => simp [ih]

/-- The nested `for dy { for dx { if in-bounds { accumulate } } }` loop
of both sampling paths, expressed as a sum of per-pixel contributions
over the covered pixel list. -/
theorem cellFold_eq {β : Type} [AddMonoid β] (scale : ℚ) (w h x y : Nat)
    (contrib : Nat → Nat → β) :
    (List.range (sfOf scale)).foldl (fun acc dy =>
      (List.range (sfOf scale)).foldl (fun acc2 dx =>
        if x * sfOf scale + dx < w ∧ y * sfOf scale + dy < h then
          acc2 + contrib (x * sfOf scale + dx) (y * sfOf scale + dy)
        else acc2) acc) 0
    = ((codePixels scale w h x y).map (fun p => contrib p.1 p.2)).sum := by
  have hinner : (fun (acc : β) (dy : Nat) =>
      (List.range (sfOf scale)).foldl (fun acc2 dx =>
        if x * sfOf scale + dx < w ∧ y * sfOf scale + dy < h then
          acc2 + contrib (x * sfOf scale + dx) (y * sfOf scale + dy)
        else acc2) acc)
      = (fun (acc : β) (dy : Nat) => acc +
        (((List.range (sfOf scale)).filter
            (fun dx => decide (x * sfOf scale + dx < w ∧ y * sfOf scale + dy < h))).map
          (fun dx => contrib (x * sfOf scale + dx) (y * sfOf scale + dy))).sum) := by
    funext acc dy
    exact foldl_ite_add (List.range (sfOf scale)) _ _ acc
  rw [hinner, foldl_add_eq, zero_add, codePixels, blockOffsets, List.map_map,
    map_flatMap_mono, sum_flatMap_mono]
  simp [List.map_map, Function.comp_def]

/-- The grayscale sampling loop computes the sum of the per-pixel
brightness over the covered pixels, and counts exactly those pixels. -/
theorem grayCellStats_eq (cfg : AsciiConfig) (img : GrayImage) (x y : Nat) :
    grayCellStats cfg img x y =
      (((codePixels cfg.scale img.width img.height x y).map
          (fun p => pixelBrightnessGray cfg (img.get p.1 p.2))).sum,
       ((codePixels cfg.scale img.width img.height x y).length : ℚ)) := by
  have key : grayCellStats cfg img x y =
      ((codePixels cfg.scale img.width img.height x y).map
        (fun p => ((pixelBrightnessGray cfg (img.get p.1 p.2), 1) : ℚ × ℚ))).sum := by
    unfold grayCellStats scaleFactor
    exact cellFold_eq cfg.scale img.width img.height x y
      (fun px py => (pixelBrightnessGray cfg (img.get px py), 1))
  rw [key]
  have := sum_map_pair (codePixels cfg.scale img.width img.height x y)
    (fun p => pixelBrightnessGray cfg (img.get p.1 p.2)) (fun _ => (1 : ℚ))
  rw [this, sum_map_one]

/-- The colored sampling loop computes, componentwise, the channel sums,
the luma sum and the covered-pixel count. -/
theorem coloredCellStats_eq (cfg : AsciiConfig) (img : RgbaImage) (x y : Nat) :
    coloredCellStats cfg img x y =
      ((codePixels cfg.scale img.width img.height x y).map
        (fun p => coloredPixelContrib (img.get p.1 p.2))).sum := by
  unfold coloredCellStats scaleFactor
  exact cellFold_eq cfg.scale img.width img.height x y
    (fun px py => coloredPixelContrib (img.get px py))

/-! ### Range and bound lemmas -/

theorem u8_div_mem (v : Fin 256) : 0 ≤ (v.val : ℚ) / 255 ∧ (v.val : ℚ) / 255 ≤ 1 := by
  constructor
  · positivity
  · rw [div_le_one (by norm_num : (0:ℚ) < 255)]
    exact_mod_cast Nat.le_of_lt_succ v.isLt

theorem pixelBrightnessGray_mem (cfg : AsciiConfig) (p : Fin 256) :
    0 ≤ pixelBrightnessGray cfg p ∧ pixelBrightnessGray cfg p ≤ 1 := by
  obtain ⟨h0, h1⟩ := u8_div_mem p
  unfold pixelBrightnessGray
  rcases cfg.invert with _ | _ <;> simp <;> constructor <;> linarith

theorem coloredLuma_mem (p : Fin 256 × Fin 256 × Fin 256 × Fin 256) :
    0 ≤ (coloredPixelContrib p).2.2.2.1 ∧ (coloredPixelContrib p).2.2.2.1 ≤ 1 := by
  obtain ⟨hr0, hr1⟩ := u8_div_mem p.1
  obtain ⟨hg0, hg1⟩ := u8_div_mem p.2.1
  obtain ⟨hb0, hb1⟩ := u8_div_mem p.2.2.1
  unfold coloredPixelContrib
  refine ⟨by positivity, ?_⟩
  have h1 := mul_le_mul_of_nonneg_right hr1 (by norm_num : (0:ℚ) ≤ 3/10)
  have h2 := mul_le_mul_of_nonneg_right hg1 (by norm_num : (0:ℚ) ≤ 59/100)
  have h3 := mul_le_mul_of_nonneg_right hb1 (by norm_num : (0:ℚ) ≤ 11/100)
  simp only
  linarith

theorem sum_le_length (l : List ℚ) (h : ∀ q ∈ l, q ≤ 1) : l.sum ≤ (l.length : ℚ) := by
  have := List.sum_le_card_nsmul l 1 h
  simpa using this

/-- The ratio `sum / length` of a list of values in `[0, 1]` is again in
`[0, 1]` (also when the list is empty and the ratio is `0/0 = 0`). -/
theorem sum_div_length_mem (l : List ℚ) (h : ∀ q ∈ l, 0 ≤ q ∧ q ≤ 1) :
    0 ≤ l.sum / (l.length : ℚ) ∧ l.sum / (l.length : ℚ) ≤ 1 := by
  rcases Nat.eq_zero_or_pos l.length with hl | hl
  · rw [hl]
    norm_num
  · have hpos : (0 : ℚ) < (l.length : ℚ) := by exact_mod_cast hl
    constructor
    · exact div_nonneg (List.sum_nonneg fun q hq => (h q hq).1) (le_of_lt hpos)
    · rw [div_le_one hpos]
      exact sum_le_length l fun q hq => (h q hq).2

theorem grayCellAvg_mem (cfg : AsciiConfig) (img : GrayImage) (x y : Nat) :
    0 ≤ grayCellAvg cfg img x y ∧ grayCellAvg cfg img x y ≤ 1 := by
  unfold grayCellAvg
  rw [grayCellStats_eq]
  set L := (codePixels cfg.scale img.width img.height x y).map
    (fun p => pixelBrightnessGray cfg (img.get p.1 p.2)) with hL
  by_cases hpos : (0 : ℚ) < ((codePixels cfg.scale img.width img.height x y).length : ℚ)
  · simp only [hpos, if_pos]
    have hlen : L.length = (codePixels cfg.scale img.width img.height x y).length := by
      rw [hL, List.length_map]
    have := sum_div_length_mem L (by
      intro q hq
      rw [hL] at hq
      obtain ⟨p, _, rfl⟩ := List.mem_map.mp hq
      exact pixelBrightnessGray_mem cfg _)
    rwa [hlen] at this
  · simp [hpos]

theorem coloredAvgBrightness_mem (cfg : AsciiConfig) (img : RgbaImage) (x y : Nat) :
    0 ≤ coloredAvgBrightness cfg img x y ∧ coloredAvgBrightness cfg img x y ≤ 1 := by
  unfold coloredAvgBrightness
  rw [coloredCellStats_eq]
  have h51 : (((codePixels cfg.scale img.width img.height x y).map
      (fun p => coloredPixelContrib (img.get p.1 p.2))).sum).2.2.2.1
      = ((codePixels cfg.scale img.width img.height x y).map
          (fun p => (coloredPixelContrib (img.get p.1 p.2)).2.2.2.1)).sum := by
    generalize codePixels cfg.scale img.width img.height x y = l
    induction l with
    | nil => rfl
    | cons a t ih => simp [ih, Prod.add_def]
  have h52 : (((codePixels cfg.scale img.width img.height x y).map
      (fun p => coloredPixelContrib (img.get p.1 p.2))).sum).2.2.2.2
      = ((codePixels cfg.scale img.width img.height x y).length : ℚ) := by
    have : (((codePixels cfg.scale img.width img.height x y).map
        (fun p => coloredPixelContrib (img.get p.1 p.2))).sum).2.2.2.2
        = ((codePixels cfg.scale img.width img.height x y).map
            (fun p => (coloredPixelContrib (img.get p.1 p.2)).2.2.2.2)).sum := by
      generalize codePixels cfg.scale img.width img.height x y = l
      induction l with
      | nil => rfl
      | cons a t ih => simp [ih, Prod.add_def]
    rw [this]
    have : (codePixels cfg.scale img.width img.height x y).map
        (fun p => (coloredPixelContrib (img.get p.1 p.2)).2.2.2.2)
        = (codePixels cfg.scale img.width img.height x y).map (fun _ => (1 : ℚ)) := by
      apply List.map_congr_left
      intro p _
      rfl
    rw [this, sum_map_one]
  rw [h51, h52]
  have hmem := sum_div_length_mem ((codePixels cfg.scale img.width img.height x y).map
      (fun p => (coloredPixelContrib (img.get p.1 p.2)).2.2.2.1)) (by
    intro q hq
    obtain ⟨p, _, rfl⟩ := List.mem_map.mp hq
    exact coloredLuma_mem _)
  rw [List.length_map] at hmem
  by_cases hinv : cfg.invert = true
  · simp only [hinv, if_true]
    exact ⟨by linarith [hmem.2], by linarith [hmem.1]⟩
  · simp only [hinv, if_false]
    exact hmem

/-! ### Glyph-index lemmas -/

theorem glyphIndex_le_sub_one (v : ℚ) (n : Nat) (h1 : v ≤ 1) :
    glyphIndex v n ≤ n - 1 := by
  unfold glyphIndex ratToUsize
  have hm : v * ((n - 1 : Nat) : ℚ) ≤ ((n - 1 : Nat) : ℚ) :=
    mul_le_of_le_one_left (Nat.cast_nonneg _) h1
  have hf : ⌊v * ((n - 1 : Nat) : ℚ)⌋ ≤ ((n - 1 : Nat) : ℤ) := by
    have := Int.floor_le_floor hm
    rwa [Int.floor_natCast] at this
  calc (⌊v * ((n - 1 : Nat) : ℚ)⌋).toNat ≤ ((n - 1 : Nat) : ℤ).toNat :=
        Int.toNat_le_toNat hf
    _ = n - 1 := Int.toNat_natCast _

theorem glyphIndex_lt (v : ℚ) (n : Nat) (h1 : v ≤ 1) (hn : 1 ≤ n) :
    glyphIndex v n < n :=
  lt_of_le_of_lt (glyphIndex_le_sub_one v n h1) (Nat.sub_lt hn Nat.one_pos)

theorem glyphIndex_mono (v w : ℚ) (n : Nat) (h : v ≤ w) :
    glyphIndex v n ≤ glyphIndex w n := by
  unfold glyphIndex ratToUsize
  exact Int.toNat_le_toNat (Int.floor_le_floor
    (mul_le_mul_of_nonneg_right h (Nat.cast_nonneg _)))

theorem glyphIndex_zero (n : Nat) : glyphIndex 0 n = 0 := by
  simp [glyphIndex, ratToUsize]

theorem glyphIndex_one (n : Nat) : glyphIndex 1 n = n - 1 := by
  simp [glyphIndex, ratToUsize]

/-! ### Block geometry -/

theorem blockOffsets_mem (sf w h bx bY dx dy : Nat) :
    (dx, dy) ∈ blockOffsets sf w h bx bY ↔
      (dx < sf ∧ dy < sf ∧ bx + dx < w ∧ bY + dy < h) := by
  unfold blockOffsets
  simp only [List.mem_flatMap, List.mem_map, List.mem_filter, List.mem_range,
    decide_eq_true_eq, Prod.mk.injEq]
  constructor
  · rintro ⟨a, ha, b, ⟨hb, hc⟩, rfl, rfl⟩
    exact ⟨hb, ha, hc.1, hc.2⟩
  · rintro ⟨h1, h2, h3, h4⟩
    exact ⟨dy, h2, dx, ⟨h1, h3, h4⟩, rfl, rfl⟩

theorem codePixels_mem_iff (scale : ℚ) (w h x y px py : Nat) :
    (px, py) ∈ codePixels scale w h x y ↔
      (x * sfOf scale ≤ px ∧ px < (x + 1) * sfOf scale ∧
       y * sfOf scale ≤ py ∧ py < (y + 1) * sfOf scale ∧ px < w ∧ py < h) := by
  unfold codePixels
  rw [List.mem_map]
  have hx : (x + 1) * sfOf scale = x * sfOf scale + sfOf scale := by ring
  have hy : (y + 1) * sfOf scale = y * sfOf scale + sfOf scale := by ring
  rw [hx, hy]
  constructor
  · rintro ⟨⟨dx, dy⟩, hd, heq⟩
    rw [blockOffsets_mem] at hd
    obtain ⟨h1, h2, h3, h4⟩ := hd
    obtain ⟨rfl, rfl⟩ := Prod.mk.injEq .. |>.mp heq
    omega
  · rintro ⟨h1, h2, h3, h4, h5, h6⟩
    refine ⟨(px - x * sfOf scale, py - y * sfOf scale), ?_, ?_⟩
    · rw [blockOffsets_mem]
      omega
    · simp only [Prod.mk.injEq]
      omega

/-! ### Line structure of the grayscale output -/

theorem splitNLAux_append (row rest acc : List Char) (h : '\n' ∉ row) :
    splitNLAux (row ++ '\n' :: rest) acc = (acc.reverse ++ row) :: splitNLAux rest [] := by
  induction row generalizing acc with
  | nil => simp [splitNLAux]
  | cons c t ih =>
    have hc : ¬ (c = '\n') := fun e => h (by simp [e])
    simp only [List.cons_append, splitNLAux, if_neg hc]
    show splitNLAux (t ++ '\n' :: rest) (c :: acc) = _
    rw [ih (c :: acc) (fun hm => h (List.mem_cons_of_mem _ hm))]
    simp

theorem splitNL_flatMap {α : Type} (ys : List α) (f : α → List Char)
    (h : ∀ y ∈ ys, '\n' ∉ f y) :
    splitNL (ys.flatMap (fun y => f y ++ ['\n'])) = ys.map f := by
  induction ys with
  | nil => rfl
  | cons a t ih =>
    have hstep : (f a ++ ['\n']) ++ t.flatMap (fun y => f y ++ ['\n'])
        = f a ++ '\n' :: t.flatMap (fun y => f y ++ ['\n']) := by
      rw [List.append_assoc]
      rfl
    unfold splitNL
    rw [List.flatMap_cons, hstep,
      splitNLAux_append (f a) _ [] (h a (List.mem_cons_self a t))]
    simp only [List.reverse_nil, List.nil_append, List.map_cons]
    exact congrArg _ (ih fun y hy => h y (List.mem_cons_of_mem a hy))

theorem count_newline_flatMap {α : Type} (ys : List α) (f : α → List Char)
    (h : ∀ y ∈ ys, '\n' ∉ f y) :
    (ys.flatMap (fun y => f y ++ ['\n'])).count '\n' = ys.length := by
  induction ys with
  | nil => rfl
  | cons a t ih =>
    rw [List.flatMap_cons, List.count_append, List.count_append]
    rw [List.count_eq_zero.mpr (h a (List.mem_cons_self a t))]
    rw [ih fun y hy => h y (List.mem_cons_of_mem a hy)]
    simp [List.count_cons]
    omega

/-! ### Per-cell glyph facts -/

theorem hd_entry_one_char : ∀ i, i < 22 → (HIGH_DENSITY_CHARS.getD i "").toList.length = 1 := by
  decide

theorem hd_entry_no_newline :
    ∀ i, i < 22 → ∀ c ∈ (HIGH_DENSITY_CHARS.getD i "").toList, c ≠ '\n' := by
  decide

theorem getD_char_ne_newline (l : List Char) (hl : ∀ c ∈ l, c ≠ '\n')
    (i : Nat) (d : Char) (hd : d ≠ '\n') : l.getD i d ≠ '\n' := by
  rcases Nat.lt_or_ge i l.length with hlt | hge
  · rw [List.getD_eq_getElem l d hlt]
    exact hl _ (List.getElem_mem hlt)
  · rw [List.getD_eq_default l d hge]
    exact hd

theorem grayAlphabetLen_pos (cfg : AsciiConfig) : 1 ≤ grayAlphabetLen cfg := by
  unfold grayAlphabetLen
  split
  · decide
  · split <;> decide

theorem grayCellIndex_lt (cfg : AsciiConfig) (img : GrayImage) (x y : Nat) :
    grayCellIndex cfg img x y < grayAlphabetLen cfg :=
  glyphIndex_lt _ _ (grayCellAvg_mem cfg img x y).2 (grayAlphabetLen_pos cfg)

theorem grayCellGlyph_length (cfg : AsciiConfig) (img : GrayImage) (x y : Nat) :
    (grayCellGlyph cfg img x y).length = 1 := by
  have hidx := grayCellIndex_lt cfg img x y
  unfold grayCellGlyph
  by_cases hhd : cfg.use_high_density = true
  · rw [if_pos hhd]
    apply hd_entry_one_char
    have : grayAlphabetLen cfg = 22 := by unfold grayAlphabetLen; rw [if_pos hhd]; rfl
    rw [this] at hidx
    exact hidx
  · rw [if_neg hhd]
    split <;> rfl

theorem grayCellGlyph_no_newline (cfg : AsciiConfig) (img : GrayImage) (x y : Nat) :
    ∀ c ∈ grayCellGlyph cfg img x y, c ≠ '\n' := by
  have hidx := grayCellIndex_lt cfg img x y
  unfold grayCellGlyph
  by_cases hhd : cfg.use_high_density = true
  · rw [if_pos hhd]
    apply hd_entry_no_newline
    have : grayAlphabetLen cfg = 22 := by unfold grayAlphabetLen; rw [if_pos hhd]; rfl
    rw [this] at hidx
    exact hidx
  · rw [if_neg hhd]
    intro c hc
    split at hc
    · rcases List.mem_singleton.mp hc with rfl
      exact getD_char_ne_newline DETAILED_ASCII_CHARS (by decide) _ ' ' (by decide)
    · rcases List.mem_singleton.mp hc with rfl
      exact getD_char_ne_newline ASCII_CHARS (by decide) _ ' ' (by decide)

theorem grayRow_no_newline (cfg : AsciiConfig) (img : GrayImage) (y : Nat) :
    '\n' ∉ grayRow cfg img y := by
  intro hmem
  unfold grayRow at hmem
  obtain ⟨x, _, hc⟩ := List.mem_flatMap.mp hmem
  exact grayCellGlyph_no_newline cfg img x y '\n' hc rfl

theorem grayRow_length (cfg : AsciiConfig) (img : GrayImage) (y : Nat) :
    (grayRow cfg img y).length = cfg.width := by
  unfold grayRow
  rw [List.length_flatMap]
  have : (List.range cfg.width).map (List.length ∘ fun x => grayCellGlyph cfg img x y)
      = (List.range cfg.width).map (fun _ => 1) := by
    apply List.map_congr_left
    intro x _
    exact grayCellGlyph_length cfg img x y
  rw [this]
  simp

theorem range_one_eq : List.range 1 = [0] := rfl

/-! ### Claim theorems -/

/-- C1: for every configuration and every decoded image, the grayscale
conversion output consists of exactly `config.height` lines, each
terminated by a newline and containing exactly `config.width` glyphs. -/
theorem C1_grayscale_output_shape (cfg : AsciiConfig) (img : GrayImage) :
    (splitNL (image_to_ascii cfg img)).length = cfg.height ∧
    (∀ l ∈ splitNL (image_to_ascii cfg img), l.length = cfg.width) ∧
    (image_to_ascii cfg img).count '\n' = cfg.height := by
  have hrows : splitNL (image_to_ascii cfg img)
      = (List.range cfg.height).map (grayRow cfg img) := by
    unfold image_to_ascii
    exact splitNL_flatMap _ _ (fun y _ => grayRow_no_newline cfg img y)
  refine ⟨?_, ?_, ?_⟩
  · rw [hrows]
    simp
  · rw [hrows]
    intro l hl
    obtain ⟨y, _, rfl⟩ := List.mem_map.mp hl
    exact grayRow_length cfg img y
  · unfold image_to_ascii
    rw [count_newline_flatMap _ _ (fun y _ => grayRow_no_newline cfg img y)]
    simp

/-- C8 counterexample: the Unicode block-density alphabet does NOT have
21 entries — `HIGH_DENSITY_CHARS` has 22. -/
theorem C8_counterexample : HIGH_DENSITY_CHARS.length ≠ 21 := by decide

/-- C8 (amended): the basic set has exactly 10 glyphs, the detailed set
70, the Unicode block-density set 22 (not 21), and every alphabet has
length at least 2. -/
theorem C8_alphabet_sizes :
    ASCII_CHARS.length = 10 ∧ DETAILED_ASCII_CHARS.length = 70 ∧
    HIGH_DENSITY_CHARS.length = 22 ∧ COLORED_HD_FALLBACK_CHARS.length = 10 ∧
    2 ≤ ASCII_CHARS.length ∧ 2 ≤ DETAILED_ASCII_CHARS.length ∧
    2 ≤ HIGH_DENSITY_CHARS.length := by decide

/-- C9: for every configuration and decoded image, the glyph index
computed from an aggregate brightness is within the bounds of the
alphabet actually indexed, in the grayscale path and in the colored
path, so the conversion stage never fails after decoding. -/
theorem C9_indices_in_bounds (cfg : AsciiConfig) (img : GrayImage)
    (imgc : RgbaImage) (x y : Nat) :
    grayCellIndex cfg img x y < grayAlphabetLen cfg ∧
    coloredCharIndex cfg imgc x y < (coloredChars cfg).length := by
  refine ⟨grayCellIndex_lt cfg img x y, ?_⟩
  apply glyphIndex_lt _ _ (coloredAvgBrightness_mem cfg imgc x y).2
  unfold coloredChars
  split
  · decide
  · split <;> decide

/-- C2: for brightness `v ∈ [0,1]` and an alphabet of length `n ≥ 2`,
the selected index equals `⌊v·(n-1)⌋` clamped to `[0, n-1]`; `v = 0`
selects index 0, `v = 1` selects `n-1` without overflow, and the index
is monotone non-decreasing in `v`. -/
theorem C2_glyph_selector_contract (n : Nat) (hn : 2 ≤ n) (v w : ℚ)
    (h0 : 0 ≤ v) (h1 : v ≤ 1) (hvw : v ≤ w) :
    (glyphIndex v n : ℤ) = max 0 (min ((n : ℤ) - 1) ⌊v * ((n - 1 : Nat) : ℚ)⌋) ∧
    glyphIndex 0 n = 0 ∧ glyphIndex 1 n = n - 1 ∧
    glyphIndex v n ≤ glyphIndex w n := by
  refine ⟨?_, glyphIndex_zero n, glyphIndex_one n, glyphIndex_mono v w n hvw⟩
  have hb1 : 0 ≤ ⌊v * ((n - 1 : Nat) : ℚ)⌋ :=
    Int.floor_nonneg.mpr (mul_nonneg h0 (Nat.cast_nonneg _))
  have hb2 : ⌊v * ((n - 1 : Nat) : ℚ)⌋ ≤ ((n - 1 : Nat) : ℤ) := by
    have := Int.floor_le_floor (mul_le_of_le_one_left
      (Nat.cast_nonneg (α := ℚ) (n - 1)) h1)
    rwa [Int.floor_natCast] at this
  simp only [glyphIndex, ratToUsize]
  omega

/-- C2 witness at `n = 10`, `v = 1/5`, `w = 1/2`. -/
theorem C2_witness :
    (2 ≤ 10 ∧ (0 : ℚ) ≤ 1/5 ∧ (1 : ℚ)/5 ≤ 1 ∧ (1 : ℚ)/5 ≤ 1/2) ∧
    ((glyphIndex (1/5) 10 : ℤ)
        = max 0 (min ((10 : ℤ) - 1) ⌊(1/5 : ℚ) * ((10 - 1 : Nat) : ℚ)⌋) ∧
      glyphIndex 0 10 = 0 ∧ glyphIndex 1 10 = 10 - 1 ∧
      glyphIndex (1/5) 10 ≤ glyphIndex (1/2) 10) :=
  ⟨⟨by norm_num, by norm_num, by norm_num, by norm_num⟩,
   C2_glyph_selector_contract 10 (by norm_num) (1/5) (1/2)
     (by norm_num) (by norm_num) (by norm_num)⟩

theorem clampRust_eq_clamp01Spec (x : ℚ) : clampRust x 0 1 = clamp01Spec x := by
  unfold clampRust clamp01Spec
  by_cases h1 : x < 0
  · rw [if_pos h1, min_eq_right (le_trans (le_of_lt h1) zero_le_one),
      max_eq_left (le_of_lt h1)]
  · rw [if_neg h1]
    by_cases h2 : 1 < x
    · rw [if_pos h2, min_eq_left (le_of_lt h2), max_eq_right zero_le_one]
    · rw [if_neg h2, min_eq_right (not_lt.mp h2), max_eq_right (not_lt.mp h1)]

theorem clamp01Spec_mem (x : ℚ) : 0 ≤ clamp01Spec x ∧ clamp01Spec x ≤ 1 :=
  ⟨le_max_left 0 _, max_le zero_le_one (min_le_left 1 x)⟩

/-- C3 counterexample: at channel value 100 with contrast 1 and
brightness 0.876, the normalized value is `87.6/255`-scaled to `87.6`;
the code truncates to 87 while the claimed round-to-nearest gives 88. -/
theorem C3_counterexample :
    adjustChannel 1 (219/250) ⟨100, by norm_num⟩ = 87 ∧
    specToneMapRound 1 (219/250) ⟨100, by norm_num⟩ = 88 ∧
    adjustChannel 1 (219/250) ⟨100, by norm_num⟩
      ≠ specToneMapRound 1 (219/250) ⟨100, by norm_num⟩ := by
  have ha : adjustChannel 1 (219/250) ⟨100, by norm_num⟩ = 87 := by
    norm_num [adjustChannel, clampRust, ratToU8]
    decide
  have hb : specToneMapRound 1 (219/250) ⟨100, by norm_num⟩ = 88 := by
    norm_num [specToneMapRound, clamp01Spec, round_eq]
    decide
  exact ⟨ha, hb, by rw [ha, hb]; norm_num⟩

/-- C3 (amended): tone adjustment maps each of the first three channels
through normalize, contrast-clamp, brightness-clamp and a TRUNCATING
(not rounding) denormalization to 8 bits, leaving alpha untouched. -/
theorem C3_tone_adjustment (c b : ℚ) (p : Fin 256 × Fin 256 × Fin 256 × Fin 256) :
    adjustPixel c b p =
      (specToneMapTrunc c b p.1, specToneMapTrunc c b p.2.1,
       specToneMapTrunc c b p.2.2.1, p.2.2.2.val) := by
  have key : ∀ ch : Fin 256, adjustChannel c b ch = specToneMapTrunc c b ch := by
    intro ch
    unfold adjustChannel specToneMapTrunc ratToU8
    rw [clampRust_eq_clamp01Spec, clampRust_eq_clamp01Spec]
    have hle : ⌊clamp01Spec (clamp01Spec (((ch.val : ℚ) / 255 - 1/2) * c + 1/2) * b)
        * 255⌋ ≤ 255 := by
      have hmul : clamp01Spec (clamp01Spec (((ch.val : ℚ) / 255 - 1/2) * c + 1/2) * b)
          * 255 ≤ 255 := by
        have hv1 := (clamp01Spec_mem (clamp01Spec (((ch.val : ℚ) / 255 - 1/2) * c + 1/2) * b)).2
        nlinarith
      have := Int.floor_le_floor hmul
      simpa using this
    omega
  unfold adjustPixel
  rw [key, key, key]

/-- C4 counterexample: with `scale = 0.5` the truncated scale factor is
0, so every block covers zero pixels; the colored path then emits NO
span for the cell (the cell is skipped), refuting the claim that in
both paths a glyph is still produced. -/
theorem C4_counterexample :
    coloredCell cfgZero imgCBlack 0 0 = none ∧
    coloredRow cfgZero imgCBlack 0 = [] := by
  have hc : (coloredCellStats cfgZero imgCBlack 0 0).2.2.2.2 = 0 := by
    norm_num [coloredCellStats, scaleFactor, sfOf, cfgZero, cfgUnit, defaultConfig]
  have h1 : coloredCell cfgZero imgCBlack 0 0 = none := by
    unfold coloredCell
    rw [hc]
    norm_num
  refine ⟨h1, ?_⟩
  unfold coloredRow
  have hw : cfgZero.width = 1 := rfl
  rw [hw]
  simp [List.filterMap_cons, h1]

/-- C4 (amended): a zero-coverage cell makes the grayscale aggregate
default to 0 and still produces one glyph, while the colored path skips
the cell's span entirely; neither path fails. -/
theorem C4_zero_coverage (cfg : AsciiConfig) (img : GrayImage) (imgc : RgbaImage)
    (x y : Nat) (hg : (grayCellStats cfg img x y).2 = 0)
    (hc : (coloredCellStats cfg imgc x y).2.2.2.2 = 0) :
    grayCellAvg cfg img x y = 0 ∧
    (grayCellGlyph cfg img x y).length = 1 ∧
    coloredCell cfg imgc x y = none := by
  refine ⟨?_, grayCellGlyph_length cfg img x y, ?_⟩
  · unfold grayCellAvg
    rw [hg]
    norm_num
  · unfold coloredCell
    rw [hc]
    norm_num

/-- C4 witness: the zero-coverage configuration `cfgZero` on 1×1
images. -/
theorem C4_witness :
    ((grayCellStats cfgZero imgGray51 0 0).2 = 0 ∧
     (coloredCellStats cfgZero imgCBlack 0 0).2.2.2.2 = 0) ∧
    (grayCellAvg cfgZero imgGray51 0 0 = 0 ∧
     (grayCellGlyph cfgZero imgGray51 0 0).length = 1 ∧
     coloredCell cfgZero imgCBlack 0 0 = none) := by
  have hg : (grayCellStats cfgZero imgGray51 0 0).2 = 0 := by
    norm_num [grayCellStats, scaleFactor, sfOf, cfgZero, cfgUnit, defaultConfig]
  have hc : (coloredCellStats cfgZero imgCBlack 0 0).2.2.2.2 = 0 := by
    norm_num [coloredCellStats, scaleFactor, sfOf, cfgZero, cfgUnit, defaultConfig]
  exact ⟨⟨hg, hc⟩, C4_zero_coverage cfgZero imgGray51 imgCBlack 0 0 hg hc⟩

/-- C5 counterexample: with the non-integer `scale = 1.5` the code's
block for cell `(1, 0)` in a 4×4 buffer contains pixel `(1, 0)`, which
is NOT in the claimed real-valued rectangle
`[1.5, 3) × [0, 1.5)` — the code truncates the scale to 1 first. -/
theorem C5_counterexample :
    (1, 0) ∈ codePixels (3/2) 4 4 1 0 ∧ ¬ specBlockMem (3/2) 4 4 1 0 1 0 := by
  constructor
  · rw [codePixels_mem_iff]
    have hsf : sfOf (3/2) = 1 := by norm_num [sfOf]
    rw [hsf]
    omega
  · unfold specBlockMem
    intro h
    have := h.1
    norm_num at this

/-- C5 (amended): the block of cell `(x, y)` is the rectangle
`[x·⌊scale⌋, (x+1)·⌊scale⌋) × [y·⌊scale⌋, (y+1)·⌊scale⌋)` intersected
with the buffer bounds (scale truncated to an integer first), and both
sampling loops aggregate exactly the sums over those pixels, the
grayscale average being their arithmetic mean. -/
theorem C5_block_geometry (cfg : AsciiConfig) (img : GrayImage) (imgc : RgbaImage)
    (x y px py : Nat) :
    ((px, py) ∈ codePixels cfg.scale img.width img.height x y ↔
      (x * scaleFactor cfg ≤ px ∧ px < (x + 1) * scaleFactor cfg ∧
       y * scaleFactor cfg ≤ py ∧ py < (y + 1) * scaleFactor cfg ∧
       px < img.width ∧ py < img.height)) ∧
    grayCellStats cfg img x y =
      (((codePixels cfg.scale img.width img.height x y).map
          (fun p => pixelBrightnessGray cfg (img.get p.1 p.2))).sum,
       ((codePixels cfg.scale img.width img.height x y).length : ℚ)) ∧
    coloredCellStats cfg imgc x y =
      ((codePixels cfg.scale imgc.width imgc.height x y).map
        (fun p => coloredPixelContrib (imgc.get p.1 p.2))).sum ∧
    grayCellAvg cfg img x y =
      ((codePixels cfg.scale img.width img.height x y).map
          (fun p => pixelBrightnessGray cfg (img.get p.1 p.2))).sum /
        ((codePixels cfg.scale img.width img.height x y).length : ℚ) := by
  refine ⟨codePixels_mem_iff cfg.scale img.width img.height x y px py,
    grayCellStats_eq cfg img x y, coloredCellStats_eq cfg imgc x y, ?_⟩
  unfold grayCellAvg
  rw [grayCellStats_eq]
  rcases Nat.eq_zero_or_pos (codePixels cfg.scale img.width img.height x y).length
    with hl | hl
  · rw [List.length_eq_zero] at hl
    rw [hl]
    norm_num
  · have hpos : (0 : ℚ) < ((codePixels cfg.scale img.width img.height x y).length : ℚ) := by
      exact_mod_cast hl
    rw [if_pos hpos]

/-- C6 counterexample: in the colored path with `use_high_density` set
and a white cell (brightness 1), the code emits the glyph at index
`⌊1·9⌋ = 9` of the high-density alphabet ("◆"), not the glyph at
`⌊1·(n_hd - 1)⌋ = 21` (" ") that the claim's formula selects. -/
theorem C6_counterexample :
    coloredGlyph cfgHD imgCWhite 0 0 = "◆" ∧
    HIGH_DENSITY_CHARS.getD
      (glyphIndex (coloredAvgBrightness cfgHD imgCWhite 0 0) HIGH_DENSITY_CHARS.length)
      "" = " " ∧
    coloredGlyph cfgHD imgCWhite 0 0 ≠
      HIGH_DENSITY_CHARS.getD
        (glyphIndex (coloredAvgBrightness cfgHD imgCWhite 0 0) HIGH_DENSITY_CHARS.length)
        "" := by
  have havg : coloredAvgBrightness cfgHD imgCWhite 0 0 = 1 := by
    norm_num [coloredAvgBrightness, coloredCellStats, coloredPixelContrib, scaleFactor,
      sfOf, cfgHD, cfgUnit, defaultConfig, imgCWhite, Prod.mk_add_mk, range_one_eq]
  have hcc : coloredChars cfgHD = COLORED_HD_FALLBACK_CHARS := by
    simp [coloredChars, cfgHD, cfgUnit, defaultConfig]
  have hidx : coloredCharIndex cfgHD imgCWhite 0 0 = 9 := by
    unfold coloredCharIndex
    rw [havg, hcc, glyphIndex_one]
    decide
  have h1 : coloredGlyph cfgHD imgCWhite 0 0 = "◆" := by
    unfold coloredGlyph
    rw [hidx, if_pos ⟨rfl, by decide⟩]
    decide
  have h2 : HIGH_DENSITY_CHARS.getD
      (glyphIndex (coloredAvgBrightness cfgHD imgCWhite 0 0) HIGH_DENSITY_CHARS.length)
      "" = " " := by
    rw [havg, glyphIndex_one]
    decide
  exact ⟨h1, h2, by rw [h1, h2]; decide⟩

/-- C6 (amended): in the colored path with `use_high_density` set (and
`use_detailed_chars` clear) the index is computed against the 10-byte
fallback alphabet, `⌊v·9⌋`, and the emitted glyph is the high-density
glyph at that index — only the first 10 of the 22 entries are
reachable. -/
theorem C6_colored_high_density (cfg : AsciiConfig) (img : RgbaImage) (x y : Nat)
    (hhd : cfg.use_high_density = true) (hnd : cfg.use_detailed_chars = false) :
    coloredChars cfg = COLORED_HD_FALLBACK_CHARS ∧
    coloredCharIndex cfg img x y
      = glyphIndex (coloredAvgBrightness cfg img x y) COLORED_HD_FALLBACK_CHARS.length ∧
    coloredCharIndex cfg img x y < HIGH_DENSITY_CHARS.length ∧
    coloredGlyph cfg img x y
      = HIGH_DENSITY_CHARS.getD (coloredCharIndex cfg img x y) "" := by
  have hcc : coloredChars cfg = COLORED_HD_FALLBACK_CHARS := by
    simp [coloredChars, hnd, hhd]
  have hidx : coloredCharIndex cfg img x y
      = glyphIndex (coloredAvgBrightness cfg img x y) COLORED_HD_FALLBACK_CHARS.length := by
    unfold coloredCharIndex
    rw [hcc]
  have hlt : coloredCharIndex cfg img x y < HIGH_DENSITY_CHARS.length := by
    rw [hidx]
    have h9 := glyphIndex_le_sub_one (coloredAvgBrightness cfg img x y)
      COLORED_HD_FALLBACK_CHARS.length (coloredAvgBrightness_mem cfg img x y).2
    have e1 : COLORED_HD_FALLBACK_CHARS.length - 1 = 9 := by decide
    have e2 : HIGH_DENSITY_CHARS.length = 22 := by decide
    omega
  refine ⟨hcc, hidx, hlt, ?_⟩
  unfold coloredGlyph
  rw [if_pos ⟨hhd, hlt⟩]

/-- C6 witness: `cfgHD` on the white image. -/
theorem C6_witness :
    (cfgHD.use_high_density = true ∧ cfgHD.use_detailed_chars = false) ∧
    (coloredChars cfgHD = COLORED_HD_FALLBACK_CHARS ∧
     coloredCharIndex cfgHD imgCWhite 0 0
       = glyphIndex (coloredAvgBrightness cfgHD imgCWhite 0 0)
           COLORED_HD_FALLBACK_CHARS.length ∧
     coloredCharIndex cfgHD imgCWhite 0 0 < HIGH_DENSITY_CHARS.length ∧
     coloredGlyph cfgHD imgCWhite 0 0
       = HIGH_DENSITY_CHARS.getD (coloredCharIndex cfgHD imgCWhite 0 0) "") :=
  ⟨⟨rfl, rfl⟩, C6_colored_high_density cfgHD imgCWhite 0 0 rfl rfl⟩

/-- C7 counterexample: on a 1×1 image of luminance 51 (brightness 1/5),
the grayscale indices with invert on (7) and off (1) sum to 8, not to
`n - 1 = 9`: truncation makes the two selections asymmetric whenever
`v·(n-1)` is not an integer. -/
theorem C7_counterexample :
    grayCellIndex cfgInvOn imgGray51 0 0 + grayCellIndex cfgUnit imgGray51 0 0 = 8 ∧
    grayAlphabetLen cfgUnit - 1 = 9 ∧
    grayCellIndex cfgInvOn imgGray51 0 0 + grayCellIndex cfgUnit imgGray51 0 0
      ≠ grayAlphabetLen cfgUnit - 1 := by
  have hoff : grayCellAvg cfgUnit imgGray51 0 0 = 1/5 := by
    norm_num [grayCellAvg, grayCellStats, scaleFactor, sfOf, pixelBrightnessGray,
      cfgUnit, defaultConfig, imgGray51, Prod.mk_add_mk, range_one_eq]
  have hon : grayCellAvg cfgInvOn imgGray51 0 0 = 4/5 := by
    norm_num [grayCellAvg, grayCellStats, scaleFactor, sfOf, pixelBrightnessGray,
      cfgInvOn, cfgUnit, defaultConfig, imgGray51, Prod.mk_add_mk, range_one_eq]
  have hluni : grayAlphabetLen cfgUnit = 10 := by
    simp [grayAlphabetLen, cfgUnit, defaultConfig]
    decide
  have hlinv : grayAlphabetLen cfgInvOn = 10 := by
    simp [grayAlphabetLen, cfgInvOn, cfgUnit, defaultConfig]
    decide
  have hioff : grayCellIndex cfgUnit imgGray51 0 0 = 1 := by
    unfold grayCellIndex
    rw [hoff, hluni]
    norm_num [glyphIndex, ratToUsize]
  have hion : grayCellIndex cfgInvOn imgGray51 0 0 = 7 := by
    unfold grayCellIndex
    rw [hon, hlinv]
    norm_num [glyphIndex, ratToUsize]
    decide
  refine ⟨by rw [hioff, hion], by rw [hluni], ?_⟩
  rw [hioff, hion, hluni]
  norm_num

/-- C7 (amended): with invert on versus off the two selected indices sum
to `n - 1` exactly when `v·(n-1)` is an integer, and to `n - 2`
otherwise — symmetric around the midpoint only up to the floor's
truncation loss. -/
theorem C7_invert_symmetry (v : ℚ) (n : Nat) (h0 : 0 ≤ v) (h1 : v ≤ 1) (hn : 2 ≤ n) :
    ((∃ k : ℤ, v * ((n - 1 : Nat) : ℚ) = (k : ℚ)) →
      glyphIndex (1 - v) n + glyphIndex v n = n - 1) ∧
    ((¬ ∃ k : ℤ, v * ((n - 1 : Nat) : ℚ) = (k : ℚ)) →
      glyphIndex (1 - v) n + glyphIndex v n = n - 2) := by
  set m : ℕ := n - 1 with hm
  set a : ℚ := v * (m : ℚ) with ha
  have ha0 : 0 ≤ a := mul_nonneg h0 (Nat.cast_nonneg _)
  have ham : a ≤ (m : ℚ) := mul_le_of_le_one_left (Nat.cast_nonneg _) h1
  have hgv : glyphIndex v n = (⌊a⌋).toNat := rfl
  have hgw : glyphIndex (1 - v) n = (⌊(m : ℚ) - a⌋).toNat := by
    have hB : (1 - v) * ((m : ℕ) : ℚ) = (m : ℚ) - a := by
      rw [ha]
      ring
    unfold glyphIndex ratToUsize
    rw [← hm, hB]
  have hfm : ⌊(m : ℚ) - a⌋ = ⌊-a⌋ + m := by
    have hrw : (m : ℚ) - a = -a + (m : ℕ) := by ring
    rw [hrw, Int.floor_add_nat]
  have hfloor0 : 0 ≤ ⌊a⌋ := Int.floor_nonneg.mpr ha0
  have hfloorm : ⌊a⌋ ≤ (m : ℤ) := by
    have := Int.floor_le_floor ham
    rwa [Int.floor_natCast] at this
  constructor
  · rintro ⟨k, hk⟩
    have hfk : ⌊a⌋ = k := by
      rw [hk]
      exact Int.floor_intCast k
    have hck : ⌈a⌉ = k := by
      rw [hk]
      exact Int.ceil_intCast k
    rw [hgv, hgw, hfm, Int.floor_neg, hck, hfk]
    omega
  · intro hk
    have hne : ⌈a⌉ = ⌊a⌋ + 1 := by
      refine le_antisymm (Int.ceil_le_floor_add_one a) ?_
      by_contra hcon
      push_neg at hcon
      have hle : ⌈a⌉ ≤ ⌊a⌋ := by omega
      have hca : a ≤ (⌊a⌋ : ℚ) :=
        le_trans (Int.le_ceil a) (by exact_mod_cast hle)
      have heq : (⌊a⌋ : ℚ) = a := le_antisymm (Int.floor_le a) hca
      exact hk ⟨⌊a⌋, heq.symm⟩
    have hltm : ⌊a⌋ < (m : ℤ) := by
      rcases eq_or_lt_of_le ham with he | hl
      · exact absurd ⟨(m : ℤ), by exact_mod_cast he⟩ hk
      · exact Int.floor_lt.mpr (by exact_mod_cast hl)
    rw [hgv, hgw, hfm, Int.floor_neg, hne]
    omega

/-- C7 witness at `v = 1/5`, `n = 10` (a non-integer `v·(n-1)`). -/
theorem C7_witness :
    ((0 : ℚ) ≤ 1/5 ∧ (1 : ℚ)/5 ≤ 1 ∧ 2 ≤ 10) ∧
    (((∃ k : ℤ, (1/5 : ℚ) * ((10 - 1 : Nat) : ℚ) = (k : ℚ)) →
        glyphIndex (1 - 1/5) 10 + glyphIndex (1/5) 10 = 10 - 1) ∧
     ((¬ ∃ k : ℤ, (1/5 : ℚ) * ((10 - 1 : Nat) : ℚ) = (k : ℚ)) →
        glyphIndex (1 - 1/5) 10 + glyphIndex (1/5) 10 = 10 - 2)) :=
  ⟨⟨by norm_num, by norm_num, by norm_num⟩,
   C7_invert_symmetry (1/5) 10 (by norm_num) (by norm_num) (by norm_num)⟩

/-- C10 counterexample: with BOTH flags set, the colored path on a black
cell computes its index from the detailed alphabet but then emits the
high-density glyph "█", not the detailed ASCII glyph "$" the claim
asserts. -/
theorem C10_counterexample :
    coloredGlyph cfgBoth imgCBlack 0 0 = "█" ∧
    String.singleton
      (DETAILED_ASCII_CHARS.getD (coloredCharIndex cfgBoth imgCBlack 0 0) ' ') = "$" ∧
    coloredGlyph cfgBoth imgCBlack 0 0 ≠
      String.singleton
        (DETAILED_ASCII_CHARS.getD (coloredCharIndex cfgBoth imgCBlack 0 0) ' ') := by
  have havg : coloredAvgBrightness cfgBoth imgCBlack 0 0 = 0 := by
    norm_num [coloredAvgBrightness, coloredCellStats, coloredPixelContrib, scaleFactor,
      sfOf, cfgBoth, cfgUnit, defaultConfig, imgCBlack, Prod.mk_add_mk, range_one_eq]
  have hidx : coloredCharIndex cfgBoth imgCBlack 0 0 = 0 := by
    unfold coloredCharIndex
    rw [havg, glyphIndex_zero]
  have h1 : coloredGlyph cfgBoth imgCBlack 0 0 = "█" := by
    unfold coloredGlyph
    rw [hidx, if_pos ⟨rfl, by decide⟩]
    decide
  have h2 : String.singleton
      (DETAILED_ASCII_CHARS.getD (coloredCharIndex cfgBoth imgCBlack 0 0) ' ') = "$" := by
    rw [hidx]
    decide
  exact ⟨h1, h2, by rw [h1, h2]; decide⟩

/-- C10 (amended): with both flags set the grayscale path gives
`use_high_density` full precedence, while the colored path computes its
index from the detailed alphabet but emits the high-density glyph
whenever that index is below 22, falling back to the detailed ASCII
glyph otherwise. -/
theorem C10_flag_precedence (cfg : AsciiConfig) (img : GrayImage) (imgc : RgbaImage)
    (x y : Nat) (hdet : cfg.use_detailed_chars = true) (hhd : cfg.use_high_density = true) :
    grayAlphabetLen cfg = HIGH_DENSITY_CHARS.length ∧
    grayCellGlyph cfg img x y
      = (HIGH_DENSITY_CHARS.getD (grayCellIndex cfg img x y) "").toList ∧
    coloredChars cfg = DETAILED_ASCII_CHARS ∧
    coloredGlyph cfg imgc x y =
      (if coloredCharIndex cfg imgc x y < HIGH_DENSITY_CHARS.length
       then HIGH_DENSITY_CHARS.getD (coloredCharIndex cfg imgc x y) ""
       else String.singleton
         (DETAILED_ASCII_CHARS.getD (coloredCharIndex cfg imgc x y) ' ')) := by
  refine ⟨?_, ?_, ?_, ?_⟩
  · unfold grayAlphabetLen
    rw [if_pos hhd]
  · unfold grayCellGlyph
    rw [if_pos hhd]
  · unfold coloredChars
    rw [if_pos hdet]
  · unfold coloredGlyph
    by_cases hlt : coloredCharIndex cfg imgc x y < HIGH_DENSITY_CHARS.length
    · rw [if_pos ⟨hhd, hlt⟩, if_pos hlt]
    · rw [if_neg (fun hcon => hlt hcon.2), if_neg hlt]
      rw [show coloredChars cfg = DETAILED_ASCII_CHARS from by
        unfold coloredChars
        rw [if_pos hdet]]

/-- C10 witness: `cfgBoth` on concrete 1×1 images. -/
theorem C10_witness :
    (cfgBoth.use_detailed_chars = true ∧ cfgBoth.use_high_density = true) ∧
    (grayAlphabetLen cfgBoth = HIGH_DENSITY_CHARS.length ∧
     grayCellGlyph cfgBoth imgGray51 0 0
       = (HIGH_DENSITY_CHARS.getD (grayCellIndex cfgBoth imgGray51 0 0) "").toList ∧
     coloredChars cfgBoth = DETAILED_ASCII_CHARS ∧
     coloredGlyph cfgBoth imgCBlack 0 0 =
       (if coloredCharIndex cfgBoth imgCBlack 0 0 < HIGH_DENSITY_CHARS.length
        then HIGH_DENSITY_CHARS.getD (coloredCharIndex cfgBoth imgCBlack 0 0) ""
        else String.singleton
          (DETAILED_ASCII_CHARS.getD (coloredCharIndex cfgBoth imgCBlack 0 0) ' '))) :=
  ⟨⟨rfl, rfl⟩, C10_flag_precedence cfgBoth imgGray51 imgCBlack 0 0 rfl rfl⟩

end Aspix
